import Mathlib

/-
Verification of the event-log repository in services/executor/repository.py.

The repository stores immutable activity events in a relational table
trading_activities (columns id, user_id, cycle_id, activity_type,
activity_data, created_at) and offers three operations:

  * log_activity        - INSERT one row (ids stored as RAW(16) bytes of the
                          UUID, payload serialized to JSON text) and COMMIT;
  * get_events_by_cycle_id - SELECT activity_type, activity_data, created_at
                          WHERE cycle_id matches, ORDER BY created_at ASC,
                          payload JSON text parsed back into a document;
  * get_open_cycles_by_user - SELECT cycle_id ... GROUP BY cycle_id HAVING
                          SUM(CASE WHEN activity_type = CYCLE_CLOSED THEN 1
                          ELSE 0 END) = 0, bytes converted back to UUIDs.

The embedding below models the table as a list of rows, UUIDs as natural
numbers below 2^128 stored as their 16-byte big-endian representation
(uuid.UUID.bytes / uuid.UUID(bytes=...)), JSON documents as an inductive
value type with an executable serializer and parser (json.dumps via
pydantic model_dump_json / json.loads), ORDER BY as a sort on the
timestamp key, and failure (a raised exception) as Option.none.
-/

/-! ### UUID byte representation

`uuid.UUID.bytes` is the 16-byte big-endian representation of the 128-bit
integer; `uuid.UUID(bytes=b)` reconstructs the integer from those bytes. -/

def natToBytesBE : Nat → Nat → List Nat
  | 0, _ => []
  | k + 1, n => natToBytesBE k (n / 256) ++ [n % 256]

def bytesToNatBE (bs : List Nat) : Nat :=
  bs.foldl (fun acc b => acc * 256 + b) 0

/-- The RAW(16) value written for a UUID, as in `user_id.bytes`. -/
def uuidBytes (n : Nat) : List Nat := natToBytesBE 16 n

/-- Reading a RAW(16) column back, as in `uuid.UUID(bytes=row[0])`. -/
def uuidFromBytes (bs : List Nat) : Nat := bytesToNatBE bs

/-- A byte string that can sit in a RAW(16) column: 16 bytes, each below 256. -/
def validRaw (bs : List Nat) : Bool :=
  bs.length == 16 && bs.all (fun b => decide (b < 256))

/-! ### JSON documents

JSON-representable payloads, their canonical serialization to text and an
executable parser.  Arrays and objects use their own list types so that all
functions are structurally recursive (hence computable by the kernel). -/

mutual
inductive Json where
  | null : Json
  | bool (b : Bool) : Json
  | num (n : Int) : Json
  | str (s : String) : Json
  | arr (elems : JsonList) : Json
  | obj (fields : JsonFields) : Json
inductive JsonList where
  | nil : JsonList
  | cons (hd : Json) (tl : JsonList) : JsonList
inductive JsonFields where
  | nil : JsonFields
  | cons (key : String) (value : Json) (tl : JsonFields) : JsonFields
end

def lbrace : Char := Char.ofNat 123

def rbrace : Char := Char.ofNat 125

def digitChar (d : Nat) : Char := Char.ofNat (48 + d)

/-- Decimal digits of `n`, least significant first; `[]` for `0`. -/
def digitsRevAux : Nat → Nat → List Nat
  | 0, _ => []
  | f + 1, n => if n = 0 then [] else n % 10 :: digitsRevAux f (n / 10)

/-- Decimal digit characters of `n`, most significant first, no leading zeros. -/
def natDigits (n : Nat) : List Char :=
  if n = 0 then ['0'] else ((digitsRevAux n n).reverse).map digitChar

def serInt (n : Int) : List Char :=
  if n < 0 then '-' :: natDigits n.natAbs else natDigits n.natAbs

def hexDigitChar (d : Nat) : Char :=
  Char.ofNat (if d < 10 then 48 + d else 87 + d)

def escapeChar (c : Char) : List Char :=
  if c = '"' then ['\\', '"']
  else if c = '\\' then ['\\', '\\']
  else if c.toNat < 32 then
    ['\\', 'u', '0', '0'] ++ [hexDigitChar (c.toNat / 16), hexDigitChar (c.toNat % 16)]
  else [c]

def escapeChars : List Char → List Char
  | [] => []
  | c :: cs => escapeChar c ++ escapeChars cs

mutual
def serJson : Json → List Char
  | .null => "null".data
  | .bool true => "true".data
  | .bool false => "false".data
  | .num n => serInt n
  | .str s => '"' :: (escapeChars s.data ++ ['"'])
  | .arr xs => '[' :: serItems xs
  | .obj fs => lbrace :: serFields fs
def serItems : JsonList → List Char
  | .nil => [']']
  | .cons x .nil => serJson x ++ [']']
  | .cons x (.cons y tl) => serJson x ++ ',' :: serItems (.cons y tl)
def serFields : JsonFields → List Char
  | .nil => [rbrace]
  | .cons k v .nil => '"' :: (escapeChars k.data ++ '"' :: ':' :: serJson v) ++ [rbrace]
  | .cons k v (.cons k2 v2 tl) =>
      '"' :: (escapeChars k.data ++ '"' :: ':' :: serJson v) ++
        ',' :: serFields (.cons k2 v2 tl)
end

/-- Serialization of a payload to JSON text, as `activity_data.model_dump_json()`. -/
def serializeJson (j : Json) : String := String.mk (serJson j)

def isDigitCh (c : Char) : Bool := 48 ≤ c.toNat && c.toNat ≤ 57

def digitVal (c : Char) : Nat := c.toNat - 48

def spanDigits : List Char → List Char × List Char
  | [] => ([], [])
  | c :: cs =>
    if isDigitCh c then
      let p := spanDigits cs
      (c :: p.1, p.2)
    else ([], c :: cs)

def digitsToNat (ds : List Char) : Nat :=
  ds.foldl (fun a c => a * 10 + digitVal c) 0

def parseNumber (cs : List Char) : Option (Json × List Char) :=
  match cs with
  | [] => none
  | c :: rest =>
    if c = '-' then
      let p := spanDigits rest
      if p.1 = [] then none else some (.num (-(digitsToNat p.1 : Int)), p.2)
    else
      let p := spanDigits (c :: rest)
      if p.1 = [] then none else some (.num ((digitsToNat p.1 : Int)), p.2)

def isHexCh (c : Char) : Bool :=
  (48 ≤ c.toNat && c.toNat ≤ 57) || (97 ≤ c.toNat && c.toNat ≤ 102)

def hexVal (c : Char) : Nat :=
  if c.toNat ≤ 57 then c.toNat - 48 else c.toNat - 87

def stripPrefixChars : List Char → List Char → Option (List Char)
  | [], cs => some cs
  | _ :: _, [] => none
  | p :: ps, c :: cs => if c = p then stripPrefixChars ps cs else none

/-- Body of a JSON string literal (after the opening quote), fueled so that it
is structurally recursive.  Returns the unescaped characters and the input
remaining after the closing quote. -/
def parseStrChars : Nat → List Char → Option (List Char × List Char)
  | 0, _ => none
  | _ + 1, [] => none
  | f + 1, c :: rest =>
    if c = '"' then some ([], rest)
    else if c = '\\' then
      match rest with
      | [] => none
      | e :: rest2 =>
        if e = '"' then (parseStrChars f rest2).map (fun p => ('"' :: p.1, p.2))
        else if e = '\\' then (parseStrChars f rest2).map (fun p => ('\\' :: p.1, p.2))
        else if e = 'u' then
          match rest2 with
          | h1 :: h2 :: h3 :: h4 :: rest3 =>
            if isHexCh h1 && isHexCh h2 && isHexCh h3 && isHexCh h4 then
              let n := ((hexVal h1 * 16 + hexVal h2) * 16 + hexVal h3) * 16 + hexVal h4
              if n < 55296 then
                (parseStrChars f rest3).map (fun p => (Char.ofNat n :: p.1, p.2))
              else none
            else none
          | _ => none
        else none
    else if c.toNat < 32 then none
    else (parseStrChars f rest).map (fun p => (c :: p.1, p.2))

inductive PMode where
  | value : PMode
  | items : PMode
  | fields : PMode

inductive POut where
  | val (j : Json) : POut
  | items (xs : JsonList) : POut
  | fields (fs : JsonFields) : POut

/-- Recursive-descent JSON parser, fueled so that it is structurally
recursive; the mode distinguishes a single value, the items of an array
after the opening bracket, and the fields of an object after the opening
brace. -/
def parseAny : Nat → PMode → List Char → Option (POut × List Char)
  | 0, _, _ => none
  | _ + 1, _, [] => none
  | f + 1, PMode.value, c :: rest =>
    if c = 'n' then (stripPrefixChars ['u', 'l', 'l'] rest).map (fun r => (POut.val .null, r))
    else if c = 't' then
      (stripPrefixChars ['r', 'u', 'e'] rest).map (fun r => (POut.val (.bool true), r))
    else if c = 'f' then
      (stripPrefixChars ['a', 'l', 's', 'e'] rest).map (fun r => (POut.val (.bool false), r))
    else if c = '"' then
      (parseStrChars (rest.length + 1) rest).map
        (fun p => (POut.val (.str (String.mk p.1)), p.2))
    else if c = '[' then
      match rest with
      | [] => none
      | d :: rest2 =>
        if d = ']' then some (POut.val (.arr .nil), rest2)
        else
          match parseAny f PMode.items (d :: rest2) with
          | some (POut.items xs, r) => some (POut.val (.arr xs), r)
          | _ => none
    else if c = lbrace then
      match rest with
      | [] => none
      | d :: rest2 =>
        if d = rbrace then some (POut.val (.obj .nil), rest2)
        else
          match parseAny f PMode.fields (d :: rest2) with
          | some (POut.fields fs, r) => some (POut.val (.obj fs), r)
          | _ => none
    else (parseNumber (c :: rest)).map (fun p => (POut.val p.1, p.2))
  | f + 1, PMode.items, cs =>
    match parseAny f PMode.value cs with
    | some (POut.val j, r) =>
      (match r with
       | [] => none
       | d :: r2 =>
         if d = ',' then
           match parseAny f PMode.items r2 with
           | some (POut.items xs, r3) => some (POut.items (.cons j xs), r3)
           | _ => none
         else if d = ']' then some (POut.items (.cons j .nil), r2)
         else none)
    | _ => none
  | f + 1, PMode.fields, cs =>
    match cs with
    | [] => none
    | c :: rest =>
      if c = '"' then
        match parseStrChars (rest.length + 1) rest with
        | some (kcs, r1) =>
          (match r1 with
           | [] => none
           | d :: r2 =>
             if d = ':' then
               match parseAny f PMode.value r2 with
               | some (POut.val v, r3) =>
                 (match r3 with
                  | [] => none
                  | e :: r4 =>
                    if e = ',' then
                      match parseAny f PMode.fields r4 with
                      | some (POut.fields fs, r5) =>
                          some (POut.fields (.cons (String.mk kcs) v fs), r5)
                      | _ => none
                    else if e = rbrace then
                      some (POut.fields (.cons (String.mk kcs) v .nil), r4)
                    else none)
               | _ => none
             else none)
        | none => none
      else none

/-- Parsing of stored JSON text back into a document, as `json.loads`;
`none` models the raised decode error on corrupt text. -/
def parseJson (s : String) : Option Json :=
  match parseAny (s.data.length + 1) PMode.value s.data with
  | some (POut.val j, []) => some j
  | _ => none

/-! ### Size measures used for fuel accounting in the parser proofs -/

mutual
def jsize : Json → Nat
  | .arr xs => 1 + jsizeL xs
  | .obj fs => 1 + jsizeF fs
  | _ => 1
def jsizeL : JsonList → Nat
  | .nil => 0
  | .cons x tl => 1 + jsize x + jsizeL tl
def jsizeF : JsonFields → Nat
  | .nil => 0
  | .cons _ v tl => 1 + jsize v + jsizeF tl
end

/-- Little-endian value of a decimal digit list. -/
def ofDigitsRev : List Nat → Nat
  | [] => 0
  | d :: ds => d + 10 * ofDigitsRev ds

/-- A continuation in front of which a serialized number may stand: the next
character, if any, is not a decimal digit. -/
def delimOk (cs : List Char) : Prop :=
  ∀ c, cs.head? = some c → isDigitCh c = false

/-! ### The event store

A shallow embedding of OCICycleRepository over the trading_activities
table.  The table is a list of rows in insertion order; `SYSTIMESTAMP` is
the caller-visible server clock value `now`; a fresh `uuid.uuid4()` is the
argument `freshId`; a raised exception is `Option.none`. -/

structure Row where
  id : List Nat
  user_id : List Nat
  cycle_id : Option (List Nat)
  activity_type : String
  activity_data : String
  created_at : Nat
deriving DecidableEq

/-- The record shape returned by get_events_by_cycle_id: exactly the three
selected columns activity_type, activity_data (parsed), created_at. -/
structure EventOut where
  activity_type : String
  activity_data : Json
  created_at : Nat

def rowTsLE (a b : Row) : Prop := a.created_at ≤ b.created_at

instance : DecidableRel rowTsLE := fun a b => Nat.decLe a.created_at b.created_at

instance : IsTotal Row rowTsLE := ⟨fun a b => Nat.le_total a.created_at b.created_at⟩

instance : IsTrans Row rowTsLE := ⟨fun _ _ _ h1 h2 => Nat.le_trans h1 h2⟩

def eventTsLE (a b : EventOut) : Prop := a.created_at ≤ b.created_at

/-- All-or-nothing traversal: `some` of all results when every element maps
to `some`, `none` as soon as one element fails. -/
def mapOption : (α → Option β) → List α → Option (List β)
  | _, [] => some []
  | f, x :: xs =>
    match f x, mapOption f xs with
    | some y, some ys => some (y :: ys)
    | _, _ => none

/-- WHERE cycle_id = :cycle_id, with the parameter bound to `cycle_id.bytes`. -/
def matchesCycle (cycleId : Nat) (r : Row) : Bool :=
  r.cycle_id == some (uuidBytes cycleId)

/-- One result row of get_events_by_cycle_id: the CLOB payload text read and
parsed back (`json.loads(row[1].read())`); `none` when loading raises. -/
def projectRow (r : Row) : Option EventOut :=
  (parseJson r.activity_data).map
    (fun d => { activity_type := r.activity_type, activity_data := d, created_at := r.created_at })

/-- Totalized projection used only to state specifications. -/
def projectRowD (r : Row) : EventOut :=
  { activity_type := r.activity_type
    activity_data := (parseJson r.activity_data).getD Json.null
    created_at := r.created_at }

/-- OCICycleRepository.log_activity: binds id to fresh uuid4 bytes, user_id
and cycle_id to their 16-byte representations, serializes the payload to
JSON text, inserts the single row with the server timestamp and commits.
Passing `none` for cycle_id models a Python call with `cycle_id=None`:
`cycle_id.bytes` raises before the INSERT executes, so no row is written. -/
def log_activity (db : List Row) (freshId userId : Nat) (cycleId : Option Nat)
    (activityType : String) (activityData : Json) (now : Nat) : Option (List Row) :=
  match cycleId with
  | none => none
  | some c =>
    some (db ++ [{ id := uuidBytes freshId
                   user_id := uuidBytes userId
                   cycle_id := some (uuidBytes c)
                   activity_type := activityType
                   activity_data := serializeJson activityData
                   created_at := now }])

/-- OCICycleRepository.get_events_by_cycle_id: all rows whose cycle_id
bytes match, ORDER BY created_at ASC, each payload read and parsed;
`none` models the decode error raised on a corrupt stored payload. -/
def get_events_by_cycle_id (db : List Row) (cycleId : Nat) : Option (List EventOut) :=
  mapOption projectRow (List.insertionSort rowTsLE (db.filter (matchesCycle cycleId)))

/-- WHERE user_id = :user_id AND cycle_id IS NOT NULL. -/
def matchesUser (userId : Nat) (r : Row) : Bool :=
  r.user_id == uuidBytes userId && r.cycle_id.isSome

/-- A row of the group keyed by cycle bytes `cb` that makes the HAVING sum
positive. -/
def closesCycle (cb : List Nat) (r : Row) : Bool :=
  r.cycle_id == some cb && r.activity_type == "CYCLE_CLOSED"

/-- OCICycleRepository.get_open_cycles_by_user: rows of the user with
non-null cycle_id, grouped by cycle_id, kept when the group holds zero
CYCLE_CLOSED events, the distinct cycle byte strings converted back to
UUIDs. -/
def get_open_cycles_by_user (db : List Row) (userId : Nat) : List Nat :=
  let rows := db.filter (matchesUser userId)
  let groups := (rows.filterMap (fun r => r.cycle_id)).dedup
  let openGroups := groups.filter (fun cb => rows.countP (closesCycle cb) == 0)
  openGroups.map uuidFromBytes

/-- Rows whose non-null cycle_id field holds a well-formed RAW(16) value,
as every row written through log_activity does. -/
def rowWellFormed (r : Row) : Bool :=
  match r.cycle_id with
  | none => true
  | some cb => validRaw cb

def dbWellFormed (db : List Row) : Bool := db.all rowWellFormed

/-- Erasing the two columns never selected by get_events_by_cycle_id. -/
def scrubRow (r : Row) : Row := { r with id := [], user_id := [] }

/-- An event of user `u` on cycle `c`: the row carries that user's id bytes
and that cycle's id bytes. -/
def isEventOf (u c : Nat) (r : Row) : Prop :=
  r.user_id = uuidBytes u ∧ r.cycle_id = some (uuidBytes c)

/-- The single row inserted by a successful log_activity call. -/
def mkRow (freshId userId c : Nat) (activityType : String) (activityData : Json)
    (now : Nat) : Row :=
  { id := uuidBytes freshId
    user_id := uuidBytes userId
    cycle_id := some (uuidBytes c)
    activity_type := activityType
    activity_data := serializeJson activityData
    created_at := now }

/-! ### Concrete fixtures used to exercise the specifications -/

def sampleRow (u c : Nat) (ty : String) (pl : String) (t : Nat) : Row :=
  { id := uuidBytes 9
    user_id := uuidBytes u
    cycle_id := some (uuidBytes c)
    activity_type := ty
    activity_data := pl
    created_at := t }

def sampleDb : List Row := [sampleRow 1 2 "CYCLE_CREATED" "null" 5]

def sampleDb2 : List Row :=
  [sampleRow 1 3 "CYCLE_CREATED" "1" 5, sampleRow 1 3 "ORDER_PLACED" "2" 6]

def corruptDb : List Row := [sampleRow 1 4 "CYCLE_CREATED" "oops" 5]

def appendedDb : List Row :=
  [{ id := uuidBytes 1
     user_id := uuidBytes 2
     cycle_id := some (uuidBytes 3)
     activity_type := "CYCLE_CREATED"
     activity_data := serializeJson Json.null
     created_at := 7 }]

/-! ### Lemmas: byte representation of identifiers -/

theorem natToBytesBE_length (k n : Nat) : (natToBytesBE k n).length = k := by
  induction k generalizing n with
  | zero => rfl
  | succ k ih => simp [natToBytesBE, ih]

theorem mem_natToBytesBE_lt (k n : Nat) : ∀ b ∈ natToBytesBE k n, b < 256 := by
  induction k generalizing n with
  | zero => intro b hb; simp [natToBytesBE] at hb
  | succ k ih =>
    intro b hb
    simp only [natToBytesBE, List.mem_append, List.mem_singleton] at hb
    rcases hb with h | h
    · exact ih _ b h
    · subst h; omega

theorem bytesToNatBE_append (bs : List Nat) (b : Nat) :
    bytesToNatBE (bs ++ [b]) = bytesToNatBE bs * 256 + b := by
  simp [bytesToNatBE, List.foldl_append]

theorem bytesToNatBE_natToBytesBE (k n : Nat) :
    bytesToNatBE (natToBytesBE k n) = n % 256 ^ k := by
  induction k generalizing n with
  | zero => simp [natToBytesBE, bytesToNatBE, Nat.mod_one]
  | succ k ih =>
    rw [natToBytesBE, bytesToNatBE_append, ih]
    have h1 : (256 : Nat) ^ (k + 1) = 256 * 256 ^ k := by ring
    rw [h1, Nat.mod_mul]
    ring

theorem uuidFromBytes_uuidBytes (n : Nat) (h : n < 2 ^ 128) :
    uuidFromBytes (uuidBytes n) = n := by
  have h1 := bytesToNatBE_natToBytesBE 16 n
  have h2 : (256 : Nat) ^ 16 = 2 ^ 128 := by norm_num
  rw [uuidFromBytes, uuidBytes, h1, h2, Nat.mod_eq_of_lt h]

theorem bytesToNatBE_lt (bs : List Nat) (h : ∀ b ∈ bs, b < 256) :
    bytesToNatBE bs < 256 ^ bs.length := by
  induction bs using List.reverseRecOn with
  | nil => simp [bytesToNatBE]
  | append_singleton ds b ih =>
    rw [bytesToNatBE_append]
    have h1 : bytesToNatBE ds < 256 ^ ds.length :=
      ih (fun x hx => h x (List.mem_append_left _ hx))
    have h2 : b < 256 := h b (by simp)
    have h3 : (ds ++ [b]).length = ds.length + 1 := by simp
    rw [h3, pow_succ]
    calc bytesToNatBE ds * 256 + b < (bytesToNatBE ds + 1) * 256 := by omega
    _ ≤ 256 ^ ds.length * 256 := Nat.mul_le_mul_right 256 (by omega)

theorem natToBytesBE_bytesToNatBE (bs : List Nat) (h : ∀ b ∈ bs, b < 256) :
    natToBytesBE bs.length (bytesToNatBE bs) = bs := by
  induction bs using List.reverseRecOn with
  | nil => rfl
  | append_singleton ds b ih =>
    have h2 : b < 256 := h b (by simp)
    have h3 : (ds ++ [b]).length = ds.length + 1 := by simp
    rw [h3, bytesToNatBE_append, natToBytesBE]
    have hd : (bytesToNatBE ds * 256 + b) / 256 = bytesToNatBE ds := by omega
    have hm : (bytesToNatBE ds * 256 + b) % 256 = b := by omega
    rw [hd, hm, ih (fun x hx => h x (List.mem_append_left _ hx))]

theorem validRaw_iff (cb : List Nat) :
    validRaw cb = true ↔ cb.length = 16 ∧ ∀ b ∈ cb, b < 256 := by
  simp [validRaw, List.all_eq_true]

theorem validRaw_decode (cb : List Nat) (h : validRaw cb = true) :
    uuidBytes (uuidFromBytes cb) = cb ∧ uuidFromBytes cb < 2 ^ 128 := by
  obtain ⟨hlen, hlt⟩ := (validRaw_iff cb).1 h
  have h2 : (256 : Nat) ^ 16 = 2 ^ 128 := by norm_num
  constructor
  · rw [uuidBytes, uuidFromBytes, ← hlen, natToBytesBE_bytesToNatBE cb hlt]
  · rw [uuidFromBytes, ← h2, ← hlen]
    exact bytesToNatBE_lt cb hlt

theorem validRaw_uuidBytes (n : Nat) : validRaw (uuidBytes n) = true := by
  rw [validRaw_iff]
  exact ⟨natToBytesBE_length 16 n, mem_natToBytesBE_lt 16 n⟩

/-! ### Lemmas: decimal digits -/

theorem ofDigitsRev_digitsRevAux (f : Nat) : ∀ n, n ≤ f →
    ofDigitsRev (digitsRevAux f n) = n := by
  induction f with
  | zero => intro n hn; interval_cases n; rfl
  | succ f ih =>
    intro n hn
    rw [digitsRevAux]
    by_cases h0 : n = 0
    · simp [h0, ofDigitsRev]
    · rw [if_neg h0, ofDigitsRev, ih (n / 10) (by omega)]
      omega

theorem mem_digitsRevAux_lt (f : Nat) : ∀ n, ∀ d ∈ digitsRevAux f n, d < 10 := by
  induction f with
  | zero => intro n d hd; simp [digitsRevAux] at hd
  | succ f ih =>
    intro n d hd
    rw [digitsRevAux] at hd
    by_cases h0 : n = 0
    · simp [h0] at hd
    · rw [if_neg h0] at hd
      rcases List.mem_cons.1 hd with h | h
      · subst h; omega
      · exact ih (n / 10) d h

theorem digitChar_spec (d : Nat) (hd : d < 10) :
    isDigitCh (digitChar d) = true ∧ digitVal (digitChar d) = d := by
  interval_cases d <;> exact ⟨rfl, rfl⟩

theorem foldl_digits_map (ds : List Nat) : ∀ acc, (∀ d ∈ ds, d < 10) →
    (ds.map digitChar).foldl (fun a c => a * 10 + digitVal c) acc =
      ds.foldl (fun a d => a * 10 + d) acc := by
  induction ds with
  | nil => intro acc _; rfl
  | cons d ds ih =>
    intro acc hds
    have hd : d < 10 := hds d (List.mem_cons_self d ds)
    simp only [List.map, List.foldl_cons, (digitChar_spec d hd).2]
    exact ih _ (fun x hx => hds x (List.mem_cons_of_mem d hx))

theorem foldl_reverse_ofDigitsRev (ds : List Nat) : ∀ acc : Nat,
    (ds.reverse).foldl (fun a d => a * 10 + d) acc =
      acc * 10 ^ ds.length + ofDigitsRev ds := by
  induction ds with
  | nil => intro acc; simp [ofDigitsRev]
  | cons d ds ih =>
    intro acc
    simp only [List.reverse_cons, List.foldl_append, List.foldl_cons, List.foldl_nil, ih,
      ofDigitsRev, List.length_cons]
    ring

theorem digitsToNat_natDigits (n : Nat) : digitsToNat (natDigits n) = n := by
  by_cases h0 : n = 0
  · subst h0; rfl
  · rw [natDigits, if_neg h0, digitsToNat,
      foldl_digits_map _ _ (fun d hd => mem_digitsRevAux_lt n n d (List.mem_reverse.1 hd)),
      foldl_reverse_ofDigitsRev, ofDigitsRev_digitsRevAux n n (le_refl n)]
    simp

theorem natDigits_ne_nil (n : Nat) : natDigits n ≠ [] := by
  by_cases h0 : n = 0
  · simp [natDigits, h0]
  · rw [natDigits, if_neg h0]
    intro h
    rw [List.map_eq_nil_iff, List.reverse_eq_nil_iff] at h
    obtain ⟨f, hf⟩ : ∃ f, n = f + 1 := ⟨n - 1, by omega⟩
    rw [hf, digitsRevAux, if_neg (by omega)] at h
    exact List.cons_ne_nil _ _ h

theorem mem_natDigits_isDigit (n : Nat) : ∀ c ∈ natDigits n, isDigitCh c = true := by
  by_cases h0 : n = 0
  · intro c hc
    simp [natDigits, h0] at hc
    subst hc; rfl
  · intro c hc
    rw [natDigits, if_neg h0] at hc
    obtain ⟨d, hd, hdc⟩ := List.mem_map.1 hc
    have hlt : d < 10 := mem_digitsRevAux_lt n n d (List.mem_reverse.1 hd)
    rw [← hdc]
    exact (digitChar_spec d hlt).1

theorem isDigitCh_toNat {c : Char} (h : isDigitCh c = true) :
    48 ≤ c.toNat ∧ c.toNat ≤ 57 := by
  simp [isDigitCh] at h
  exact h

theorem delimOk_nil : delimOk [] := by
  intro c hc
  simp at hc

theorem delimOk_cons {c : Char} (h : isDigitCh c = false) (l : List Char) :
    delimOk (c :: l) := by
  intro d hd
  simp at hd
  rw [← hd]
  exact h

theorem spanDigits_append (ds : List Char) (rest : List Char)
    (hds : ∀ c ∈ ds, isDigitCh c = true) (hrest : delimOk rest) :
    spanDigits (ds ++ rest) = (ds, rest) := by
  induction ds with
  | nil =>
    cases rest with
    | nil => rfl
    | cons c cs =>
      have hc : isDigitCh c = false := hrest c rfl
      simp [spanDigits, hc]
  | cons c ds ih =>
    have hc : isDigitCh c = true := hds c (List.mem_cons_self c ds)
    have ih2 := ih (fun x hx => hds x (List.mem_cons_of_mem c hx))
    simp only [List.cons_append, spanDigits, hc, if_true]
    rw [List.append_eq, ih2]

theorem parseNumber_serInt (n : Int) (rest : List Char) (hrest : delimOk rest) :
    parseNumber (serInt n ++ rest) = some (Json.num n, rest) := by
  have hspan := spanDigits_append (natDigits n.natAbs) rest
    (mem_natDigits_isDigit n.natAbs) hrest
  have hval := digitsToNat_natDigits n.natAbs
  have hne := natDigits_ne_nil n.natAbs
  have h1 : (spanDigits (natDigits n.natAbs ++ rest)).1 = natDigits n.natAbs := by rw [hspan]
  have h2 : (spanDigits (natDigits n.natAbs ++ rest)).2 = rest := by rw [hspan]
  by_cases hn : n < 0
  · rw [serInt, if_pos hn, List.cons_append]
    have e1 : parseNumber ('-' :: (natDigits n.natAbs ++ rest)) =
        (if (spanDigits (natDigits n.natAbs ++ rest)).1 = [] then none
         else some (Json.num (-(digitsToNat (spanDigits (natDigits n.natAbs ++ rest)).1 : Int)),
           (spanDigits (natDigits n.natAbs ++ rest)).2)) := rfl
    rw [e1, h1, h2, if_neg hne, hval]
    have h3 : -(n.natAbs : Int) = n := by omega
    rw [h3]
  · rw [serInt, if_neg hn]
    obtain ⟨c, cs, hcs⟩ : ∃ c cs, natDigits n.natAbs = c :: cs :=
      List.exists_cons_of_ne_nil hne
    have hcdig : isDigitCh c = true :=
      mem_natDigits_isDigit n.natAbs c (by rw [hcs]; exact List.mem_cons_self c cs)
    have hcne : ¬ c = '-' := fun h => absurd hcdig (by subst h; decide)
    have e1 : parseNumber (c :: (cs ++ rest)) =
        (if c = '-' then
          (if (spanDigits (cs ++ rest)).1 = [] then none
           else some (Json.num (-(digitsToNat (spanDigits (cs ++ rest)).1 : Int)),
             (spanDigits (cs ++ rest)).2))
         else
          (if (spanDigits (c :: (cs ++ rest))).1 = [] then none
           else some (Json.num ((digitsToNat (spanDigits (c :: (cs ++ rest))).1 : Int)),
             (spanDigits (c :: (cs ++ rest))).2))) := rfl
    rw [hcs, List.cons_append, e1, if_neg hcne, ← List.cons_append, ← hcs, h1, h2,
      if_neg hne, hval]
    have h3 : (n.natAbs : Int) = n := by omega
    rw [h3]

/-! ### Lemmas: string escaping -/

theorem hexDigitChar_spec (d : Nat) (hd : d < 16) :
    isHexCh (hexDigitChar d) = true ∧ hexVal (hexDigitChar d) = d := by
  interval_cases d <;> exact ⟨rfl, rfl⟩

theorem escapeChar_length_pos (c : Char) : 1 ≤ (escapeChar c).length := by
  rw [escapeChar]
  split
  · simp
  · split
    · simp
    · split <;> simp

theorem escapeChars_length_ge (cs : List Char) : cs.length ≤ (escapeChars cs).length := by
  induction cs with
  | nil => simp [escapeChars]
  | cons c cs ih =>
    rw [escapeChars, List.length_append, List.length_cons]
    have := escapeChar_length_pos c
    omega

theorem parseStrChars_escapeChars (cs : List Char) : ∀ fuel rest, cs.length + 1 ≤ fuel →
    parseStrChars fuel (escapeChars cs ++ '"' :: rest) = some (cs, rest) := by
  induction cs with
  | nil =>
    intro fuel rest hf
    obtain ⟨f, rfl⟩ : ∃ f, fuel = f + 1 := ⟨fuel - 1, by omega⟩
    rfl
  | cons c cs ih =>
    intro fuel rest hf
    obtain ⟨f, rfl⟩ : ∃ f, fuel = f + 1 := ⟨fuel - 1, by omega⟩
    have hlen : cs.length + 1 ≤ f := by simp only [List.length_cons] at hf; omega
    have ihf := ih f rest hlen
    rw [escapeChars, List.append_assoc]
    by_cases hq : c = '"'
    · subst hq
      rw [show escapeChar '"' = ['\\', '"'] from rfl]
      have e1 : parseStrChars (f + 1) ('\\' :: '"' :: (escapeChars cs ++ '"' :: rest)) =
          (parseStrChars f (escapeChars cs ++ '"' :: rest)).map
            (fun p => ('"' :: p.1, p.2)) := rfl
      rw [show (['\\', '"'] : List Char) ++ (escapeChars cs ++ '"' :: rest) =
        '\\' :: '"' :: (escapeChars cs ++ '"' :: rest) from rfl, e1, ihf]
      rfl
    · by_cases hb : c = '\\'
      · subst hb
        rw [show escapeChar '\\' = ['\\', '\\'] from rfl]
        have e1 : parseStrChars (f + 1) ('\\' :: '\\' :: (escapeChars cs ++ '"' :: rest)) =
            (parseStrChars f (escapeChars cs ++ '"' :: rest)).map
              (fun p => ('\\' :: p.1, p.2)) := rfl
        rw [show (['\\', '\\'] : List Char) ++ (escapeChars cs ++ '"' :: rest) =
          '\\' :: '\\' :: (escapeChars cs ++ '"' :: rest) from rfl, e1, ihf]
        rfl
      · by_cases h32 : c.toNat < 32
        · rw [escapeChar, if_neg hq, if_neg hb, if_pos h32]
          have hd3 : c.toNat / 16 < 16 := by omega
          have hd4 : c.toNat % 16 < 16 := by omega
          have e1 : parseStrChars (f + 1)
              ('\\' :: 'u' :: '0' :: '0' :: hexDigitChar (c.toNat / 16) ::
                hexDigitChar (c.toNat % 16) :: (escapeChars cs ++ '"' :: rest)) =
              (if isHexCh '0' && isHexCh '0' && isHexCh (hexDigitChar (c.toNat / 16)) &&
                  isHexCh (hexDigitChar (c.toNat % 16)) then
                 (if ((hexVal '0' * 16 + hexVal '0') * 16 + hexVal (hexDigitChar (c.toNat / 16)))
                      * 16 + hexVal (hexDigitChar (c.toNat % 16)) < 55296 then
                    (parseStrChars f (escapeChars cs ++ '"' :: rest)).map
                      (fun p => (Char.ofNat
                        (((hexVal '0' * 16 + hexVal '0') * 16 +
                            hexVal (hexDigitChar (c.toNat / 16))) * 16 +
                          hexVal (hexDigitChar (c.toNat % 16))) :: p.1, p.2))
                  else none)
               else none) := rfl
          have hv : ((hexVal '0' * 16 + hexVal '0') * 16 + hexVal (hexDigitChar (c.toNat / 16)))
              * 16 + hexVal (hexDigitChar (c.toNat % 16)) = c.toNat := by
            rw [(hexDigitChar_spec _ hd3).2, (hexDigitChar_spec _ hd4).2,
              show hexVal '0' = 0 from rfl]
            omega
          have hcond : (isHexCh '0' && isHexCh '0' && isHexCh (hexDigitChar (c.toNat / 16)) &&
              isHexCh (hexDigitChar (c.toNat % 16))) = true := by
            rw [(hexDigitChar_spec _ hd3).1, (hexDigitChar_spec _ hd4).1]
            rfl
          rw [show ((['\\', 'u', '0', '0'] : List Char) ++
              [hexDigitChar (c.toNat / 16), hexDigitChar (c.toNat % 16)]) ++
              (escapeChars cs ++ '"' :: rest) =
            '\\' :: 'u' :: '0' :: '0' :: hexDigitChar (c.toNat / 16) ::
              hexDigitChar (c.toNat % 16) :: (escapeChars cs ++ '"' :: rest) from rfl,
            e1, hcond, if_pos rfl, hv, if_pos (by omega : c.toNat < 55296), ihf,
            Char.ofNat_toNat]
          rfl
        · rw [escapeChar, if_neg hq, if_neg hb, if_neg h32]
          rw [show ([c] : List Char) ++ (escapeChars cs ++ '"' :: rest) =
            c :: (escapeChars cs ++ '"' :: rest) from rfl]
          simp only [parseStrChars]
          rw [if_neg hq, if_neg hb, if_neg h32, ihf]
          rfl

/-! ### Lemmas: parser dispatch equations and serializer shapes -/

theorem stripPrefixChars_append (ps rest : List Char) :
    stripPrefixChars ps (ps ++ rest) = some rest := by
  induction ps with
  | nil => rfl
  | cons p ps ih => simp [stripPrefixChars, ih]

theorem stringMk_data (s : String) : String.mk s.data = s := rfl

theorem jsize_pos (j : Json) : 1 ≤ jsize j := by
  cases j <;> simp [jsize]

theorem jsizeL_cons_pos (x : Json) (tl : JsonList) : 1 ≤ jsizeL (.cons x tl) := by
  simp only [jsizeL]
  omega

theorem serInt_ne_nil (n : Int) : serInt n ≠ [] := by
  rw [serInt]
  split
  · exact List.cons_ne_nil _ _
  · exact natDigits_ne_nil _

theorem isDigitCh_ne {c : Char} (h : isDigitCh c = true) :
    ¬ c = 'n' ∧ ¬ c = 't' ∧ ¬ c = 'f' ∧ ¬ c = '"' ∧ ¬ c = '[' ∧ ¬ c = lbrace ∧
      ¬ c = ']' ∧ ¬ c = rbrace ∧ ¬ c = ',' := by
  refine ⟨?_, ?_, ?_, ?_, ?_, ?_, ?_, ?_, ?_⟩ <;>
    exact fun he => absurd (he ▸ h) (by decide)

theorem serJson_head (j : Json) : ∃ c cs, serJson j = c :: cs ∧ ¬ c = ']' := by
  cases j with
  | null => exact ⟨'n', _, rfl, by decide⟩
  | bool b => cases b with
    | true => exact ⟨'t', _, rfl, by decide⟩
    | false => exact ⟨'f', _, rfl, by decide⟩
  | num n =>
    by_cases hn : n < 0
    · exact ⟨'-', _, by rw [serJson, serInt, if_pos hn], by decide⟩
    · obtain ⟨c, cs, hcs⟩ : ∃ c cs, natDigits n.natAbs = c :: cs :=
        List.exists_cons_of_ne_nil (natDigits_ne_nil n.natAbs)
      have hdig : isDigitCh c = true :=
        mem_natDigits_isDigit n.natAbs c (by rw [hcs]; exact List.mem_cons_self c cs)
      exact ⟨c, cs, by rw [serJson, serInt, if_neg hn, hcs], (isDigitCh_ne hdig).2.2.2.2.2.2.1⟩
  | str s => exact ⟨'"', _, rfl, by decide⟩
  | arr xs => exact ⟨'[', _, rfl, by decide⟩
  | obj fs => exact ⟨lbrace, _, rfl, by decide⟩

mutual
theorem jsize_le_serJson (j : Json) : jsize j ≤ (serJson j).length := by
  cases j with
  | null => decide
  | bool b => cases b <;> decide
  | num n =>
    have h := serInt_ne_nil n
    have : 1 ≤ (serInt n).length := List.length_pos.2 h
    simpa [jsize, serJson] using this
  | str s => simp [jsize, serJson]
  | arr xs =>
    have h := jsizeL_le_serItems xs
    simp only [jsize, serJson, List.length_cons]
    omega
  | obj fs =>
    have h := jsizeF_le_serFields fs
    simp only [jsize, serJson, List.length_cons]
    omega
theorem jsizeL_le_serItems (xs : JsonList) : jsizeL xs ≤ (serItems xs).length := by
  cases xs with
  | nil => simp [jsizeL, serItems]
  | cons x tl =>
    cases tl with
    | nil =>
      have h := jsize_le_serJson x
      simp only [jsizeL, serItems, List.length_append, List.length_cons, List.length_nil]
      omega
    | cons y tl2 =>
      have h1 := jsize_le_serJson x
      have h2 := jsizeL_le_serItems (JsonList.cons y tl2)
      simp only [jsizeL, serItems, List.length_append, List.length_cons] at h2 ⊢
      omega
theorem jsizeF_le_serFields (fs : JsonFields) : jsizeF fs ≤ (serFields fs).length := by
  cases fs with
  | nil => simp [jsizeF, serFields]
  | cons k v tl =>
    cases tl with
    | nil =>
      have h := jsize_le_serJson v
      simp only [jsizeF, serFields, List.length_append, List.length_cons, List.length_nil]
      omega
    | cons k2 v2 tl2 =>
      have h1 := jsize_le_serJson v
      have h2 := jsizeF_le_serFields (JsonFields.cons k2 v2 tl2)
      simp only [jsizeF, serFields, List.length_append, List.length_cons] at h2 ⊢
      omega
end

theorem parseAny_value_n (f : Nat) (l : List Char) :
    parseAny (f + 1) PMode.value ('n' :: l) =
      (stripPrefixChars ['u', 'l', 'l'] l).map (fun r => (POut.val .null, r)) := rfl

theorem parseAny_value_t (f : Nat) (l : List Char) :
    parseAny (f + 1) PMode.value ('t' :: l) =
      (stripPrefixChars ['r', 'u', 'e'] l).map (fun r => (POut.val (.bool true), r)) := rfl

theorem parseAny_value_f (f : Nat) (l : List Char) :
    parseAny (f + 1) PMode.value ('f' :: l) =
      (stripPrefixChars ['a', 'l', 's', 'e'] l).map (fun r => (POut.val (.bool false), r)) := rfl

theorem parseAny_value_quote (f : Nat) (l : List Char) :
    parseAny (f + 1) PMode.value ('"' :: l) =
      (parseStrChars (l.length + 1) l).map
        (fun p => (POut.val (.str (String.mk p.1)), p.2)) := rfl

theorem parseAny_value_bracket (f : Nat) (d : Char) (l : List Char) :
    parseAny (f + 1) PMode.value ('[' :: d :: l) =
      (if d = ']' then some (POut.val (.arr .nil), l)
       else
         match parseAny f PMode.items (d :: l) with
         | some (POut.items xs, r) => some (POut.val (.arr xs), r)
         | _ => none) := rfl

theorem parseAny_value_brace (f : Nat) (d : Char) (l : List Char) :
    parseAny (f + 1) PMode.value (lbrace :: d :: l) =
      (if d = rbrace then some (POut.val (.obj .nil), l)
       else
         match parseAny f PMode.fields (d :: l) with
         | some (POut.fields fs, r) => some (POut.val (.obj fs), r)
         | _ => none) := rfl

theorem parseAny_value_default (f : Nat) (c : Char) (l : List Char)
    (h1 : ¬ c = 'n') (h2 : ¬ c = 't') (h3 : ¬ c = 'f') (h4 : ¬ c = '"')
    (h5 : ¬ c = '[') (h6 : ¬ c = lbrace) :
    parseAny (f + 1) PMode.value (c :: l) =
      (parseNumber (c :: l)).map (fun p => (POut.val p.1, p.2)) := by
  simp only [parseAny]
  rw [if_neg h1, if_neg h2, if_neg h3, if_neg h4, if_neg h5, if_neg h6]

theorem parseAny_items_eq (f : Nat) (c : Char) (l : List Char) :
    parseAny (f + 1) PMode.items (c :: l) =
      (match parseAny f PMode.value (c :: l) with
       | some (POut.val j, r) =>
         (match r with
          | [] => none
          | d :: r2 =>
            if d = ',' then
              match parseAny f PMode.items r2 with
              | some (POut.items xs, r3) => some (POut.items (.cons j xs), r3)
              | _ => none
            else if d = ']' then some (POut.items (.cons j .nil), r2)
            else none)
       | _ => none) := rfl

theorem parseAny_fields_eq (f : Nat) (c : Char) (l : List Char) :
    parseAny (f + 1) PMode.fields (c :: l) =
      (if c = '"' then
        match parseStrChars (l.length + 1) l with
        | some (kcs, r1) =>
          (match r1 with
           | [] => none
           | d :: r2 =>
             if d = ':' then
               match parseAny f PMode.value r2 with
               | some (POut.val v, r3) =>
                 (match r3 with
                  | [] => none
                  | e :: r4 =>
                    if e = ',' then
                      match parseAny f PMode.fields r4 with
                      | some (POut.fields fs, r5) =>
                          some (POut.fields (.cons (String.mk kcs) v fs), r5)
                      | _ => none
                    else if e = rbrace then
                      some (POut.fields (.cons (String.mk kcs) v .nil), r4)
                    else none)
               | _ => none
             else none)
        | none => none
      else none) := rfl

/-! ### The serializer-parser round trip -/

mutual
theorem parseAny_serJson : ∀ (j : Json) (fuel : Nat) (rest : List Char),
    jsize j ≤ fuel → delimOk rest →
    parseAny fuel PMode.value (serJson j ++ rest) = some (POut.val j, rest)
  | .null, fuel, rest, hs, hd => by
    obtain ⟨f, rfl⟩ : ∃ f, fuel = f + 1 := ⟨fuel - 1, by simp only [jsize] at hs; omega⟩
    rw [show serJson Json.null ++ rest = 'n' :: (['u', 'l', 'l'] ++ rest) from rfl,
      parseAny_value_n, stripPrefixChars_append]
    rfl
  | .bool true, fuel, rest, hs, hd => by
    obtain ⟨f, rfl⟩ : ∃ f, fuel = f + 1 := ⟨fuel - 1, by simp only [jsize] at hs; omega⟩
    rw [show serJson (Json.bool true) ++ rest = 't' :: (['r', 'u', 'e'] ++ rest) from rfl,
      parseAny_value_t, stripPrefixChars_append]
    rfl
  | .bool false, fuel, rest, hs, hd => by
    obtain ⟨f, rfl⟩ : ∃ f, fuel = f + 1 := ⟨fuel - 1, by simp only [jsize] at hs; omega⟩
    rw [show serJson (Json.bool false) ++ rest = 'f' :: (['a', 'l', 's', 'e'] ++ rest) from rfl,
      parseAny_value_f, stripPrefixChars_append]
    rfl
  | .num n, fuel, rest, hs, hd => by
    obtain ⟨f, rfl⟩ : ∃ f, fuel = f + 1 := ⟨fuel - 1, by simp only [jsize] at hs; omega⟩
    by_cases hn : n < 0
    · rw [show serJson (Json.num n) = serInt n from rfl, serInt, if_pos hn, List.cons_append,
        parseAny_value_default f '-' _ (by decide) (by decide) (by decide) (by decide)
          (by decide) (by decide),
        ← List.cons_append,
        show ('-' :: natDigits n.natAbs : List Char) = serInt n from
          (by rw [serInt, if_pos hn] : serInt n = '-' :: natDigits n.natAbs).symm,
        parseNumber_serInt n rest hd]
      rfl
    · obtain ⟨c, cs, hcs⟩ : ∃ c cs, natDigits n.natAbs = c :: cs :=
        List.exists_cons_of_ne_nil (natDigits_ne_nil n.natAbs)
      have hdig : isDigitCh c = true :=
        mem_natDigits_isDigit n.natAbs c (by rw [hcs]; exact List.mem_cons_self c cs)
      obtain ⟨g1, g2, g3, g4, g5, g6, _, _, _⟩ := isDigitCh_ne hdig
      rw [show serJson (Json.num n) = serInt n from rfl, serInt, if_neg hn, hcs,
        List.cons_append, parseAny_value_default f c _ g1 g2 g3 g4 g5 g6,
        ← List.cons_append, ← hcs,
        show (natDigits n.natAbs : List Char) = serInt n from
          (by rw [serInt, if_neg hn] : serInt n = natDigits n.natAbs).symm,
        parseNumber_serInt n rest hd]
      rfl
  | .str s, fuel, rest, hs, hd => by
    obtain ⟨f, rfl⟩ : ∃ f, fuel = f + 1 := ⟨fuel - 1, by simp only [jsize] at hs; omega⟩
    rw [show serJson (Json.str s) ++ rest = '"' :: (escapeChars s.data ++ '"' :: rest) from by
        rw [serJson]; simp,
      parseAny_value_quote]
    have hfu : s.data.length + 1 ≤ (escapeChars s.data ++ '"' :: rest).length + 1 := by
      have := escapeChars_length_ge s.data
      simp only [List.length_append, List.length_cons]
      omega
    rw [parseStrChars_escapeChars s.data _ rest hfu]
    rfl
  | .arr .nil, fuel, rest, hs, hd => by
    obtain ⟨f, rfl⟩ : ∃ f, fuel = f + 1 := ⟨fuel - 1, by simp only [jsize] at hs; omega⟩
    rw [show serJson (Json.arr .nil) ++ rest = '[' :: ']' :: rest from rfl,
      parseAny_value_bracket, if_pos rfl]
  | .arr (.cons x tl), fuel, rest, hs, hd => by
    obtain ⟨f, rfl⟩ : ∃ f, fuel = f + 1 := ⟨fuel - 1, by simp only [jsize] at hs; omega⟩
    obtain ⟨c0, cs0, hcs, hne⟩ := serJson_head x
    have hstep : ∃ t, serItems (JsonList.cons x tl) ++ rest = c0 :: t := by
      cases tl with
      | nil => exact ⟨cs0 ++ (']' :: rest), by rw [serItems, hcs]; simp⟩
      | cons y tl2 =>
        exact ⟨cs0 ++ (',' :: (serItems (JsonList.cons y tl2) ++ rest)),
          by rw [serItems, hcs]; simp⟩
    obtain ⟨t, ht⟩ := hstep
    have hb : jsizeL (JsonList.cons x tl) ≤ f := by simp only [jsize] at hs; omega
    have hnn : JsonList.cons x tl ≠ JsonList.nil := fun h => JsonList.noConfusion h
    rw [show serJson (Json.arr (JsonList.cons x tl)) ++ rest =
        '[' :: (serItems (JsonList.cons x tl) ++ rest) from by rw [serJson]; rfl,
      ht, parseAny_value_bracket, if_neg hne, ← ht,
      parseAny_serItems (JsonList.cons x tl) f rest hnn hb hd]
  | .obj .nil, fuel, rest, hs, hd => by
    obtain ⟨f, rfl⟩ : ∃ f, fuel = f + 1 := ⟨fuel - 1, by simp only [jsize] at hs; omega⟩
    rw [show serJson (Json.obj .nil) ++ rest = lbrace :: rbrace :: rest from rfl,
      parseAny_value_brace, if_pos rfl]
  | .obj (.cons k v tl), fuel, rest, hs, hd => by
    obtain ⟨f, rfl⟩ : ∃ f, fuel = f + 1 := ⟨fuel - 1, by simp only [jsize] at hs; omega⟩
    have hstep : ∃ t, serFields (JsonFields.cons k v tl) ++ rest = '"' :: t := by
      cases tl with
      | nil =>
        exact ⟨(escapeChars k.data ++ '"' :: ':' :: serJson v) ++ ([rbrace] ++ rest),
          by rw [serFields]; simp⟩
      | cons k2 v2 tl2 =>
        exact ⟨(escapeChars k.data ++ '"' :: ':' :: serJson v) ++
          (',' :: (serFields (JsonFields.cons k2 v2 tl2) ++ rest)),
          by rw [serFields]; simp⟩
    obtain ⟨t, ht⟩ := hstep
    have hb : jsizeF (JsonFields.cons k v tl) ≤ f := by simp only [jsize] at hs; omega
    have hq : ¬('"' : Char) = rbrace := by decide
    have hnn : JsonFields.cons k v tl ≠ JsonFields.nil := fun h => JsonFields.noConfusion h
    rw [show serJson (Json.obj (JsonFields.cons k v tl)) ++ rest =
        lbrace :: (serFields (JsonFields.cons k v tl) ++ rest) from by rw [serJson]; rfl,
      ht, parseAny_value_brace, if_neg hq, ← ht,
      parseAny_serFields (JsonFields.cons k v tl) f rest hnn hb hd]
theorem parseAny_serItems : ∀ (xs : JsonList) (fuel : Nat) (rest : List Char),
    xs ≠ .nil → jsizeL xs ≤ fuel → delimOk rest →
    parseAny fuel PMode.items (serItems xs ++ rest) = some (POut.items xs, rest)
  | .nil, _, _, hne, _, _ => absurd rfl hne
  | .cons x .nil, fuel, rest, _, hs, hd => by
    obtain ⟨f, rfl⟩ : ∃ f, fuel = f + 1 := ⟨fuel - 1, by simp only [jsizeL] at hs; omega⟩
    obtain ⟨c0, cs0, hcs, hne0⟩ := serJson_head x
    have hform : serItems (JsonList.cons x .nil) ++ rest = serJson x ++ (']' :: rest) := by
      rw [serItems]; simp
    have hhead : serJson x ++ (']' :: rest) = c0 :: (cs0 ++ (']' :: rest)) := by
      rw [hcs]; rfl
    have hb : jsize x ≤ f := by simp only [jsizeL] at hs; omega
    have hdel : delimOk (']' :: rest) := delimOk_cons (by decide) rest
    rw [hform, hhead, parseAny_items_eq, ← hhead, parseAny_serJson x f (']' :: rest) hb hdel]
    rfl
  | .cons x (.cons y tl2), fuel, rest, _, hs, hd => by
    obtain ⟨f, rfl⟩ : ∃ f, fuel = f + 1 := ⟨fuel - 1, by simp only [jsizeL] at hs; omega⟩
    obtain ⟨c0, cs0, hcs, hne0⟩ := serJson_head x
    have hform : serItems (JsonList.cons x (JsonList.cons y tl2)) ++ rest =
        serJson x ++ (',' :: (serItems (JsonList.cons y tl2) ++ rest)) := by
      rw [serItems]; simp
    have hhead : serJson x ++ (',' :: (serItems (JsonList.cons y tl2) ++ rest)) =
        c0 :: (cs0 ++ (',' :: (serItems (JsonList.cons y tl2) ++ rest))) := by
      rw [hcs]; rfl
    have hsx : jsize x ≤ f := by
      simp only [jsizeL] at hs
      have := jsizeL_cons_pos y tl2
      omega
    have hs2 : jsizeL (JsonList.cons y tl2) ≤ f := by
      have := jsize_pos x
      simp only [jsizeL] at hs ⊢
      omega
    have hnn : JsonList.cons y tl2 ≠ JsonList.nil := fun h => JsonList.noConfusion h
    have hdel : delimOk (',' :: (serItems (JsonList.cons y tl2) ++ rest)) :=
      delimOk_cons (by decide) _
    rw [hform, hhead, parseAny_items_eq, ← hhead,
      parseAny_serJson x f (',' :: (serItems (JsonList.cons y tl2) ++ rest)) hsx hdel]
    simp only [parseAny_serItems (JsonList.cons y tl2) f rest hnn hs2 hd, if_true]
theorem parseAny_serFields : ∀ (fs : JsonFields) (fuel : Nat) (rest : List Char),
    fs ≠ .nil → jsizeF fs ≤ fuel → delimOk rest →
    parseAny fuel PMode.fields (serFields fs ++ rest) = some (POut.fields fs, rest)
  | .nil, _, _, hne, _, _ => absurd rfl hne
  | .cons k v .nil, fuel, rest, _, hs, hd => by
    obtain ⟨f, rfl⟩ : ∃ f, fuel = f + 1 := ⟨fuel - 1, by simp only [jsizeF] at hs; omega⟩
    have hform : serFields (JsonFields.cons k v .nil) ++ rest =
        '"' :: (escapeChars k.data ++ '"' :: (':' :: (serJson v ++ (rbrace :: rest)))) := by
      rw [serFields]; simp
    rw [hform, parseAny_fields_eq, if_pos rfl]
    have hfu : k.data.length + 1 ≤
        (escapeChars k.data ++ '"' :: (':' :: (serJson v ++ (rbrace :: rest)))).length + 1 := by
      have := escapeChars_length_ge k.data
      simp only [List.length_append, List.length_cons]
      omega
    have hk := parseStrChars_escapeChars k.data
      ((escapeChars k.data ++ '"' :: (':' :: (serJson v ++ (rbrace :: rest)))).length + 1)
      (':' :: (serJson v ++ (rbrace :: rest))) hfu
    have hb : jsize v ≤ f := by simp only [jsizeF] at hs; omega
    have hdel : delimOk (rbrace :: rest) := delimOk_cons (by decide) rest
    have hv := parseAny_serJson v f (rbrace :: rest) hb hdel
    simp only [hk, hv, if_true]
    rfl
  | .cons k v (.cons k2 v2 tl2), fuel, rest, _, hs, hd => by
    obtain ⟨f, rfl⟩ : ∃ f, fuel = f + 1 := ⟨fuel - 1, by simp only [jsizeF] at hs; omega⟩
    have hform : serFields (JsonFields.cons k v (JsonFields.cons k2 v2 tl2)) ++ rest =
        '"' :: (escapeChars k.data ++ '"' :: (':' :: (serJson v ++
          (',' :: (serFields (JsonFields.cons k2 v2 tl2) ++ rest))))) := by
      rw [serFields]; simp
    rw [hform, parseAny_fields_eq, if_pos rfl]
    have hfu : k.data.length + 1 ≤
        (escapeChars k.data ++ '"' :: (':' :: (serJson v ++
          (',' :: (serFields (JsonFields.cons k2 v2 tl2) ++ rest))))).length + 1 := by
      have := escapeChars_length_ge k.data
      simp only [List.length_append, List.length_cons]
      omega
    have hsv : jsize v ≤ f := by
      simp only [jsizeF] at hs
      have h0 : 1 ≤ jsizeF (JsonFields.cons k2 v2 tl2) := by
        simp only [jsizeF]
        have := jsize_pos v2
        omega
      omega
    have hs2 : jsizeF (JsonFields.cons k2 v2 tl2) ≤ f := by
      have := jsize_pos v
      simp only [jsizeF] at hs ⊢
      omega
    have hk := parseStrChars_escapeChars k.data
      ((escapeChars k.data ++ '"' :: (':' :: (serJson v ++
        (',' :: (serFields (JsonFields.cons k2 v2 tl2) ++ rest))))).length + 1)
      (':' :: (serJson v ++ (',' :: (serFields (JsonFields.cons k2 v2 tl2) ++ rest)))) hfu
    have hdel : delimOk (',' :: (serFields (JsonFields.cons k2 v2 tl2) ++ rest)) :=
      delimOk_cons (by decide) (serFields (JsonFields.cons k2 v2 tl2) ++ rest)
    have hv := parseAny_serJson v f (',' :: (serFields (JsonFields.cons k2 v2 tl2) ++ rest))
      hsv hdel
    have hnn : JsonFields.cons k2 v2 tl2 ≠ JsonFields.nil := fun h => JsonFields.noConfusion h
    have hrec := parseAny_serFields (JsonFields.cons k2 v2 tl2) f rest hnn hs2 hd
    simp only [hk, hv, hrec, if_true]
end

/-- The central round trip: serializing any JSON-representable document to
text and parsing it back yields the identical document. -/
theorem parseJson_serializeJson (j : Json) : parseJson (serializeJson j) = some j := by
  rw [parseJson]
  have hdata : (serializeJson j).data = serJson j := rfl
  rw [hdata]
  have hfu : jsize j ≤ (serJson j).length + 1 := by
    have := jsize_le_serJson j
    omega
  have h := parseAny_serJson j ((serJson j).length + 1) [] hfu delimOk_nil
  rw [List.append_nil] at h
  rw [h]

/-! ### Lemmas: all-or-nothing traversal -/

theorem mapOption_map (f : α → Option β) (g : α → β) (l : List α)
    (h : ∀ a ∈ l, f a = some (g a)) : mapOption f l = some (l.map g) := by
  induction l with
  | nil => rfl
  | cons a as ih =>
    have ha := h a (List.mem_cons_self a as)
    have has := ih (fun x hx => h x (List.mem_cons_of_mem a hx))
    simp [mapOption, ha, has]

theorem mapOption_none (f : α → Option β) (l : List α) (a : α)
    (ha : a ∈ l) (hf : f a = none) : mapOption f l = none := by
  induction l with
  | nil => cases ha
  | cons b bs ih =>
    rcases List.mem_cons.1 ha with h | h
    · subst h
      simp [mapOption, hf]
    · have hbs := ih h
      cases hfb : f b <;> simp [mapOption, hfb, hbs]

theorem mapOption_mem (f : α → Option β) (l : List α) (l2 : List β)
    (h : mapOption f l = some l2) (a : α) (ha : a ∈ l) (b : β) (hb : f a = some b) :
    b ∈ l2 := by
  induction l generalizing l2 with
  | nil => cases ha
  | cons x xs ih =>
    cases hfx : f x with
    | none => simp [mapOption, hfx] at h
    | some bx =>
      cases hmx : mapOption f xs with
      | none => simp [mapOption, hfx, hmx] at h
      | some bs =>
        simp only [mapOption, hfx, hmx] at h
        injection h with h
        subst h
        rcases List.mem_cons.1 ha with h1 | h1
        · subst h1
          rw [hfx] at hb
          injection hb with hb
          subst hb
          exact List.mem_cons_self _ _
        · exact List.mem_cons_of_mem _ (ih bs hmx h1)

theorem mapOption_isSome (f : α → Option β) (l : List α)
    (h : ∀ a ∈ l, ∃ b, f a = some b) : ∃ l2, mapOption f l = some l2 := by
  induction l with
  | nil => exact ⟨[], rfl⟩
  | cons a as ih =>
    obtain ⟨b, hb⟩ := h a (List.mem_cons_self a as)
    obtain ⟨bs, hbs⟩ := ih (fun x hx => h x (List.mem_cons_of_mem a hx))
    exact ⟨b :: bs, by simp [mapOption, hb, hbs]⟩

theorem mapOption_forall_isSome (f : α → Option β) (l : List α) (l2 : List β)
    (h : mapOption f l = some l2) : ∀ a ∈ l, ∃ b, f a = some b := by
  induction l generalizing l2 with
  | nil => intro a ha; cases ha
  | cons x xs ih =>
    cases hfx : f x with
    | none => simp [mapOption, hfx] at h
    | some bx =>
      cases hmx : mapOption f xs with
      | none => simp [mapOption, hfx, hmx] at h
      | some bs =>
        intro a ha
        rcases List.mem_cons.1 ha with h1 | h1
        · subst h1; exact ⟨bx, hfx⟩
        · exact ih bs hmx a h1

/-! ### Claim C2 -/

/-- Claim C2: get_events_by_cycle_id returns every event whose cycle_id
equals the requested cycle and no others (a permutation of the projections
of the matching rows), ordered ascending by created_at, with each stored
JSON payload parsed back into a document; for rows with strictly
increasing timestamps the result keeps exactly the stored (append) order. -/
theorem claim2_events_ordered (db : List Row) (c : Nat)
    (hp : ∀ r ∈ db.filter (matchesCycle c), (parseJson r.activity_data).isSome = true) :
    ∃ es, get_events_by_cycle_id db c = some es ∧
      es.Perm ((db.filter (matchesCycle c)).map projectRowD) ∧
      List.Sorted eventTsLE es ∧
      ((db.filter (matchesCycle c)).Pairwise (fun a b => a.created_at < b.created_at) →
        es = (db.filter (matchesCycle c)).map projectRowD) := by
  have hperm := List.perm_insertionSort rowTsLE (db.filter (matchesCycle c))
  have hproj : ∀ r ∈ List.insertionSort rowTsLE (db.filter (matchesCycle c)),
      projectRow r = some (projectRowD r) := by
    intro r hr
    have hin : r ∈ db.filter (matchesCycle c) := hperm.subset hr
    have hsome := hp r hin
    rw [projectRow, projectRowD]
    cases hpj : parseJson r.activity_data with
    | none => rw [hpj] at hsome; cases hsome
    | some d => simp [hpj]
  have hres : mapOption projectRow (List.insertionSort rowTsLE (db.filter (matchesCycle c))) =
      some ((List.insertionSort rowTsLE (db.filter (matchesCycle c))).map projectRowD) :=
    mapOption_map _ _ _ hproj
  refine ⟨(List.insertionSort rowTsLE (db.filter (matchesCycle c))).map projectRowD,
    hres, hperm.map projectRowD, ?_, ?_⟩
  · have hsorted : List.Sorted rowTsLE (List.insertionSort rowTsLE (db.filter (matchesCycle c))) :=
      List.sorted_insertionSort rowTsLE (db.filter (matchesCycle c))
    exact (List.pairwise_map).2 hsorted
  · intro hstrict
    have hsl : List.Sorted rowTsLE (db.filter (matchesCycle c)) :=
      hstrict.imp (fun h => Nat.le_of_lt h)
    rw [hsl.insertionSort_eq]

/-- Witness for C2 at a concrete two-event log. -/
theorem claim2_witness :
    (∀ r ∈ sampleDb2.filter (matchesCycle 3), (parseJson r.activity_data).isSome = true) ∧
    ∃ es, get_events_by_cycle_id sampleDb2 3 = some es ∧
      es.Perm ((sampleDb2.filter (matchesCycle 3)).map projectRowD) ∧
      List.Sorted eventTsLE es ∧
      ((sampleDb2.filter (matchesCycle 3)).Pairwise (fun a b => a.created_at < b.created_at) →
        es = (sampleDb2.filter (matchesCycle 3)).map projectRowD) :=
  ⟨by decide, claim2_events_ordered sampleDb2 3 (by decide)⟩

/-! ### Claim C1 -/

/-- Claim C1: for every user, get_open_cycles_by_user returns exactly the
set of cycle identifiers having at least one event of that user and zero
CYCLE_CLOSED events of that user, each identifier listed at most once. -/
theorem claim1_open_cycles (db : List Row) (u c : Nat)
    (hwf : dbWellFormed db = true) (hc : c < 2 ^ 128) :
    (c ∈ get_open_cycles_by_user db u ↔
      ((∃ r ∈ db, isEventOf u c r) ∧
        ∀ r ∈ db, isEventOf u c r → r.activity_type ≠ "CYCLE_CLOSED")) ∧
    (get_open_cycles_by_user db u).Nodup := by
  have hdef : get_open_cycles_by_user db u =
      (((db.filter (matchesUser u)).filterMap (fun r => r.cycle_id)).dedup.filter
        (fun cb => (db.filter (matchesUser u)).countP (closesCycle cb) == 0)).map
        uuidFromBytes := rfl
  rw [dbWellFormed, List.all_eq_true] at hwf
  have hdecode : ∀ r ∈ db, ∀ cb, r.cycle_id = some cb →
      uuidBytes (uuidFromBytes cb) = cb ∧ uuidFromBytes cb < 2 ^ 128 := by
    intro r hr cb hcb
    have h1 := hwf r hr
    simp only [rowWellFormed, hcb] at h1
    exact validRaw_decode cb h1
  constructor
  · constructor
    · intro hx
      rw [hdef] at hx
      obtain ⟨cb, hcbO, hcbc⟩ := List.mem_map.1 hx
      have hcbG := (List.mem_filter.1 hcbO).1
      have hcount : (db.filter (matchesUser u)).countP (closesCycle cb) = 0 :=
        beq_iff_eq.1 ((List.mem_filter.1 hcbO).2)
      obtain ⟨r0, hr0A, hr0cb⟩ := List.mem_filterMap.1 (List.mem_dedup.1 hcbG)
      have hr0db := (List.mem_filter.1 hr0A).1
      have hr0u : matchesUser u r0 = true := (List.mem_filter.1 hr0A).2
      have hdec := hdecode r0 hr0db cb hr0cb
      have hcbeq : cb = uuidBytes c := by
        rw [← hcbc]
        exact hdec.1.symm
      have hmu : r0.user_id = uuidBytes u := by
        rw [matchesUser, Bool.and_eq_true] at hr0u
        exact beq_iff_eq.1 hr0u.1
      refine ⟨⟨r0, hr0db, hmu, by rw [hr0cb, hcbeq]⟩, ?_⟩
      intro r hr hev hty
      have hrA : r ∈ db.filter (matchesUser u) := by
        refine List.mem_filter.2 ⟨hr, ?_⟩
        rw [matchesUser, Bool.and_eq_true]
        exact ⟨beq_iff_eq.2 hev.1, by rw [hev.2]; rfl⟩
      have hnc := List.countP_eq_zero.1 hcount r hrA
      apply hnc
      rw [closesCycle, Bool.and_eq_true]
      exact ⟨beq_iff_eq.2 (by rw [hev.2, hcbeq]), beq_iff_eq.2 hty⟩
    · rintro ⟨⟨r0, hr0db, hev0⟩, hnone⟩
      rw [hdef]
      have hr0A : r0 ∈ db.filter (matchesUser u) := by
        refine List.mem_filter.2 ⟨hr0db, ?_⟩
        rw [matchesUser, Bool.and_eq_true]
        exact ⟨beq_iff_eq.2 hev0.1, by rw [hev0.2]; rfl⟩
      have hG : uuidBytes c ∈ ((db.filter (matchesUser u)).filterMap
          (fun r => r.cycle_id)).dedup :=
        List.mem_dedup.2 (List.mem_filterMap.2 ⟨r0, hr0A, hev0.2⟩)
      have hcount : (db.filter (matchesUser u)).countP (closesCycle (uuidBytes c)) = 0 := by
        apply List.countP_eq_zero.2
        intro r hrA hclose
        rw [closesCycle, Bool.and_eq_true] at hclose
        have hrdb := (List.mem_filter.1 hrA).1
        have hru : matchesUser u r = true := (List.mem_filter.1 hrA).2
        rw [matchesUser, Bool.and_eq_true] at hru
        have hev : isEventOf u c r := ⟨beq_iff_eq.1 hru.1, beq_iff_eq.1 hclose.1⟩
        exact hnone r hrdb hev (beq_iff_eq.1 hclose.2)
      refine List.mem_map.2 ⟨uuidBytes c, List.mem_filter.2 ⟨hG, beq_iff_eq.2 hcount⟩, ?_⟩
      exact uuidFromBytes_uuidBytes c hc
  · rw [hdef]
    apply List.Nodup.map_on
    · intro cb1 h1 cb2 h2 heq
      have hval : ∀ cb ∈ (((db.filter (matchesUser u)).filterMap
          (fun r => r.cycle_id)).dedup.filter
          (fun cb => (db.filter (matchesUser u)).countP (closesCycle cb) == 0)),
          uuidBytes (uuidFromBytes cb) = cb := by
        intro cb hcb
        have hcbG := (List.mem_filter.1 hcb).1
        obtain ⟨r0, hr0A, hr0cb⟩ := List.mem_filterMap.1 (List.mem_dedup.1 hcbG)
        exact (hdecode r0 ((List.mem_filter.1 hr0A).1) cb hr0cb).1
      rw [← hval cb1 h1, ← hval cb2 h2, heq]
    · exact (List.nodup_dedup _).filter _

/-- Witness for C1 at a concrete one-event log. -/
theorem claim1_witness :
    dbWellFormed sampleDb = true ∧ 2 < 2 ^ 128 ∧ (get_open_cycles_by_user sampleDb 1).Nodup :=
  ⟨by decide, by decide, (claim1_open_cycles sampleDb 1 2 (by decide) (by decide)).2⟩

/-! ### Lemmas: the inserted row -/

theorem log_activity_eq (db : List Row) (fid uid c : Nat) (aty : String) (d : Json)
    (now : Nat) :
    log_activity db fid uid (some c) aty d now = some (db ++ [mkRow fid uid c aty d now]) := rfl

theorem projectRow_mkRow (fid uid c : Nat) (aty : String) (d : Json) (now : Nat) :
    projectRow (mkRow fid uid c aty d now) =
      some { activity_type := aty, activity_data := d, created_at := now } := by
  rw [projectRow]
  show (parseJson (serializeJson d)).map _ = _
  rw [parseJson_serializeJson]
  rfl

theorem matchesCycle_mkRow (fid uid c : Nat) (aty : String) (d : Json) (now : Nat) :
    matchesCycle c (mkRow fid uid c aty d now) = true := by
  rw [matchesCycle]
  exact beq_self_eq_true _

theorem matchesUser_mkRow (fid u c : Nat) (aty : String) (d : Json) (now : Nat) :
    matchesUser u (mkRow fid u c aty d now) = true := by
  simp [matchesUser, mkRow]

/-! ### Claim C3 -/

/-- Claim C3: after a successful log_activity, reading the cycle back
includes the new event with the same activity_type and an activity_data
document equal to the appended one: the JSON serialize-then-parse round
trip through the stored text loses nothing. -/
theorem claim3_append_visible (db : List Row) (fid uid c : Nat) (aty : String) (d : Json)
    (now : Nat) (db2 : List Row) (es : List EventOut)
    (hlog : log_activity db fid uid (some c) aty d now = some db2)
    (hread : get_events_by_cycle_id db c = some es) :
    ∃ es2, get_events_by_cycle_id db2 c = some es2 ∧
      ({ activity_type := aty, activity_data := d, created_at := now } : EventOut) ∈ es2 := by
  rw [log_activity_eq] at hlog
  injection hlog with hdb2
  subst hdb2
  have hfilter : (db ++ [mkRow fid uid c aty d now]).filter (matchesCycle c) =
      db.filter (matchesCycle c) ++ [mkRow fid uid c aty d now] := by
    rw [List.filter_append]
    simp [matchesCycle_mkRow]
  have hperm := List.perm_insertionSort rowTsLE
    ((db ++ [mkRow fid uid c aty d now]).filter (matchesCycle c))
  have hRmem : mkRow fid uid c aty d now ∈ List.insertionSort rowTsLE
      ((db ++ [mkRow fid uid c aty d now]).filter (matchesCycle c)) := by
    apply hperm.mem_iff.2
    rw [hfilter]
    exact List.mem_append_right _ (List.mem_singleton.2 rfl)
  have hold := mapOption_forall_isSome projectRow _ es hread
  have hall : ∀ r ∈ List.insertionSort rowTsLE
      ((db ++ [mkRow fid uid c aty d now]).filter (matchesCycle c)),
      ∃ e, projectRow r = some e := by
    intro r hr
    have hmem := hperm.subset hr
    rw [hfilter] at hmem
    rcases List.mem_append.1 hmem with h | h
    · exact hold r (((List.perm_insertionSort rowTsLE (db.filter (matchesCycle c))).mem_iff).2 h)
    · rw [List.mem_singleton.1 h]
      exact ⟨_, projectRow_mkRow fid uid c aty d now⟩
  obtain ⟨es2, hes2⟩ := mapOption_isSome projectRow _ hall
  exact ⟨es2, hes2, mapOption_mem projectRow _ es2 hes2 _ hRmem _
    (projectRow_mkRow fid uid c aty d now)⟩

/-- Witness for C3: a fresh log, one append, one read-back. -/
theorem claim3_witness :
    log_activity [] 1 2 (some 3) "CYCLE_CREATED" Json.null 7 = some appendedDb ∧
    ∃ es2, get_events_by_cycle_id appendedDb 3 = some es2 ∧
      ({ activity_type := "CYCLE_CREATED", activity_data := Json.null,
         created_at := 7 } : EventOut) ∈ es2 :=
  ⟨rfl, claim3_append_visible [] 1 2 3 "CYCLE_CREATED" Json.null 7 appendedDb [] rfl rfl⟩

/-! ### Claim C4 -/

/-- Claim C4: every outcome of log_activity is all-or-nothing.  A failing
call returns no new log (the single modelled failure is the raised
exception, Option.none, leaving the list of rows the caller holds
untouched), and a successful call yields exactly the old log plus one
complete row, so no partial record is ever visible to a subsequent read. -/
theorem claim4_all_or_nothing (db : List Row) (fid uid : Nat) (cyc : Option Nat)
    (aty : String) (d : Json) (now : Nat) :
    (log_activity db fid uid cyc aty d now = none ∨
      ∃ r, log_activity db fid uid cyc aty d now = some (db ++ [r])) ∧
    ∀ db2, log_activity db fid uid cyc aty d now = some db2 → db2.take db.length = db := by
  cases cyc with
  | none =>
    refine ⟨Or.inl rfl, ?_⟩
    intro db2 h
    simp [log_activity] at h
  | some c =>
    refine ⟨Or.inr ⟨mkRow fid uid c aty d now, rfl⟩, ?_⟩
    intro db2 h
    rw [log_activity_eq] at h
    injection h with h
    rw [← h]
    exact List.take_left db [mkRow fid uid c aty d now]

/-- Witness for C4 at a failing input (absent cycle identifier). -/
theorem claim4_witness :
    log_activity [] 1 2 none "CYCLE_CREATED" Json.null 7 = none ∨
      ∃ r, log_activity [] 1 2 none "CYCLE_CREATED" Json.null 7 = some ([] ++ [r]) :=
  (claim4_all_or_nothing [] 1 2 none "CYCLE_CREATED" Json.null 7).1

/-! ### Claim C7 -/

/-- Claim C7: if any stored payload of the requested cycle is not valid
JSON text, get_events_by_cycle_id raises (returns none) instead of
silently skipping the corrupt event. -/
theorem claim7_corrupt_payload (db : List Row) (c : Nat) (r : Row)
    (hr : r ∈ db) (hcyc : r.cycle_id = some (uuidBytes c))
    (hbad : parseJson r.activity_data = none) :
    get_events_by_cycle_id db c = none := by
  have hrf : r ∈ db.filter (matchesCycle c) :=
    List.mem_filter.2 ⟨hr, by rw [matchesCycle, hcyc]; exact beq_self_eq_true _⟩
  have hrs : r ∈ List.insertionSort rowTsLE (db.filter (matchesCycle c)) :=
    ((List.perm_insertionSort rowTsLE _).mem_iff).2 hrf
  have hpr : projectRow r = none := by rw [projectRow, hbad]; rfl
  exact mapOption_none projectRow _ r hrs hpr

/-- Witness for C7: a stored payload that is not JSON makes the read fail. -/
theorem claim7_witness :
    parseJson "oops" = none ∧ get_events_by_cycle_id corruptDb 4 = none :=
  ⟨rfl, claim7_corrupt_payload corruptDb 4 (sampleRow 1 4 "CYCLE_CREATED" "oops" 5)
    (List.mem_singleton.2 rfl) rfl rfl⟩

/-! ### Claim C8 -/

/-- Claim C8: a cycle with no events reads back as the empty sequence,
not an error. -/
theorem claim8_unknown_cycle (db : List Row) (c : Nat)
    (h : ∀ r ∈ db, r.cycle_id ≠ some (uuidBytes c)) :
    get_events_by_cycle_id db c = some [] := by
  have hfil : db.filter (matchesCycle c) = [] := by
    rw [List.filter_eq_nil_iff]
    intro r hr
    rw [matchesCycle]
    exact fun hb => h r hr (beq_iff_eq.1 hb)
  simp only [get_events_by_cycle_id, hfil]
  rfl

/-- Witness for C8: querying an unknown cycle on a non-empty log. -/
theorem claim8_witness :
    (∀ r ∈ sampleDb, r.cycle_id ≠ some (uuidBytes 3)) ∧
      get_events_by_cycle_id sampleDb 3 = some [] :=
  ⟨by decide, claim8_unknown_cycle sampleDb 3 (by decide)⟩

/-! ### Claim C9 -/

/-- Claim C9: log_activity requires a present cycle identifier: a call
with an absent cycle_id fails before any row is written (cycle_id.bytes
raises before the INSERT), and every row this interface does write
carries a non-null cycle_id, so cycle-independent events cannot be
appended through it even though the schema column is nullable. -/
theorem claim9_cycle_required (db : List Row) (fid uid : Nat) (cyc : Option Nat)
    (aty : String) (d : Json) (now : Nat) :
    (log_activity db fid uid cyc aty d now = none ↔ cyc = none) ∧
    ∀ db2, log_activity db fid uid cyc aty d now = some db2 →
      ∃ c r, cyc = some c ∧ db2 = db ++ [r] ∧ r.cycle_id = some (uuidBytes c) := by
  cases cyc with
  | none =>
    refine ⟨⟨fun _ => rfl, fun _ => rfl⟩, ?_⟩
    intro db2 h
    simp [log_activity] at h
  | some c =>
    constructor
    · constructor
      · intro h
        rw [log_activity_eq] at h
        cases h
      · intro h
        cases h
    · intro db2 h
      rw [log_activity_eq] at h
      injection h with h
      exact ⟨c, mkRow fid uid c aty d now, rfl, h.symm, rfl⟩

/-- Witness for C9: the absent cycle identifier fails, writing nothing. -/
theorem claim9_witness :
    log_activity [] 1 2 none "CYCLE_CREATED" Json.null 7 = none :=
  (claim9_cycle_required [] 1 2 none "CYCLE_CREATED" Json.null 7).1.2 rfl

/-! ### Claim C5 -/

/-- Claim C5: a 128-bit identifier written as its raw 16 bytes at append
time and reconstructed at read time equals the original, and consequently
get_open_cycles_by_user hands back the written cycle identifier itself
(the domain value, not its storage bytes). -/
theorem claim5_uuid_roundtrip (u c fid now : Nat) (aty : String) (d : Json) (db2 : List Row)
    (hc : c < 2 ^ 128) (hty : aty ≠ "CYCLE_CLOSED")
    (hlog : log_activity [] fid u (some c) aty d now = some db2) :
    uuidFromBytes (uuidBytes c) = c ∧ get_open_cycles_by_user db2 u = [c] := by
  have hrt := uuidFromBytes_uuidBytes c hc
  refine ⟨hrt, ?_⟩
  rw [log_activity_eq, List.nil_append] at hlog
  have h : db2 = [mkRow fid u c aty d now] := (Option.some.inj hlog).symm
  rw [h]
  have hdef : get_open_cycles_by_user [mkRow fid u c aty d now] u =
      ((([mkRow fid u c aty d now].filter (matchesUser u)).filterMap
          (fun r => r.cycle_id)).dedup.filter
        (fun cb => ([mkRow fid u c aty d now].filter (matchesUser u)).countP
          (closesCycle cb) == 0)).map uuidFromBytes := rfl
  have hfil : [mkRow fid u c aty d now].filter (matchesUser u) =
      [mkRow fid u c aty d now] := by
    simp [List.filter_cons, matchesUser_mkRow]
  have hfm : ([mkRow fid u c aty d now].filterMap (fun r => r.cycle_id)) =
      [uuidBytes c] := rfl
  have hded : ([uuidBytes c] : List (List Nat)).dedup = [uuidBytes c] := by
    rw [List.dedup_cons_of_not_mem (List.not_mem_nil _), List.dedup_nil]
  have hclose : closesCycle (uuidBytes c) (mkRow fid u c aty d now) = false := by
    rw [closesCycle]
    have h1 : ((mkRow fid u c aty d now).activity_type == "CYCLE_CLOSED") = false :=
      beq_eq_false_iff_ne.2 hty
    rw [h1, Bool.and_false]
  have hcount : [mkRow fid u c aty d now].countP (closesCycle (uuidBytes c)) = 0 := by
    simp [List.countP_cons, hclose]
  rw [hdef, hfil, hfm, hded]
  simp [List.filter_cons, hcount, hrt]

/-- Witness for C5 at a concrete append and read-back. -/
theorem claim5_witness :
    uuidFromBytes (uuidBytes 3) = 3 ∧ get_open_cycles_by_user appendedDb 2 = [3] :=
  claim5_uuid_roundtrip 2 3 1 7 "CYCLE_CREATED" Json.null appendedDb (by decide)
    (by decide) rfl

/-! ### Claim C6 -/

theorem take_length_append (l m : List α) : (l ++ m).take l.length = l := by
  induction l with
  | nil => rfl
  | cons a as ih => simp [ih]

/-- Claim C6: a successful log_activity appends exactly one row: the log
grows by one, every previously written row is unchanged and still
present; the read operations take the log as a value and return results
without producing any modified log, so nothing updates or deletes an
existing event. -/
theorem claim6_append_only (db : List Row) (fid uid : Nat) (cyc : Option Nat)
    (aty : String) (d : Json) (now : Nat) (db2 : List Row)
    (hlog : log_activity db fid uid cyc aty d now = some db2) :
    db2.length = db.length + 1 ∧ db2.take db.length = db ∧ ∀ r ∈ db, r ∈ db2 := by
  cases cyc with
  | none => simp [log_activity] at hlog
  | some c =>
    rw [log_activity_eq] at hlog
    injection hlog with h
    rw [← h]
    exact ⟨by simp, take_length_append db _, fun r hr => List.mem_append_left _ hr⟩

/-- Witness for C6 at a concrete append. -/
theorem claim6_witness :
    appendedDb.length = ([] : List Row).length + 1 ∧
    appendedDb.take ([] : List Row).length = [] ∧
    ∀ r ∈ ([] : List Row), r ∈ appendedDb :=
  claim6_append_only [] 1 2 (some 3) "CYCLE_CREATED" Json.null 7 appendedDb rfl

/-! ### Claim C10 -/

/-- Claim C10: the records returned by get_events_by_cycle_id carry
exactly the three selected columns (the EventOut type has only
activity_type, activity_data, created_at); erasing the never-selected id
and user_id columns from every row leaves the result unchanged. -/
theorem claim10_projection_only (db : List Row) (c : Nat) :
    get_events_by_cycle_id (db.map scrubRow) c = get_events_by_cycle_id db c := by
  have h1 : (db.map scrubRow).filter (matchesCycle c) =
      (db.filter (matchesCycle c)).map scrubRow := by
    rw [List.filter_map]
    rfl
  have h2 : (List.insertionSort rowTsLE (db.filter (matchesCycle c))).map scrubRow =
      ((db.filter (matchesCycle c)).map scrubRow).insertionSort rowTsLE :=
    List.map_insertionSort rowTsLE rowTsLE scrubRow _ (fun a _ b _ => Iff.rfl)
  have h3 : ∀ l : List Row, mapOption projectRow (l.map scrubRow) = mapOption projectRow l := by
    intro l
    induction l with
    | nil => rfl
    | cons a as ih =>
      have hpa : projectRow (scrubRow a) = projectRow a := rfl
      simp [mapOption, List.map, hpa, ih]
  simp only [get_events_by_cycle_id]
  rw [h1, ← h2, h3]

/-- Witness for C10 at a concrete log. -/
theorem claim10_witness :
    get_events_by_cycle_id (sampleDb2.map scrubRow) 3 = get_events_by_cycle_id sampleDb2 3 :=
  claim10_projection_only sampleDb2 3
